import Mathlib

/-!
# Verification of the Gemma inference core (PyTorch reference and MLX port)

Shallow embedding of the numerical forward pipeline of the repository:
`source/gemma_torch.py` (PyTorch reference implementation) and
`source/gemma/model_mlx.py` (MLX port).  Tensors are embedded as (nested)
lists of rationals; the batch dimension is dropped because every cited
operation acts independently on each batch row.  The exponential used by
`softmax` is kept as an explicit function parameter `E : ℚ → ℚ` (the real
`exp` is transcendental); theorems that depend on it only assume the facts
they need (positivity, order) and hold in particular for the true
exponential.  `RMSNorm` and the causal-LM embedding scaling, which involve
`sqrt`, are embedded over `ℝ` further below.
-/

namespace Gemma

/-- Dot product of two vectors, `(a * b).sum`. -/
def dotL (a b : List ℚ) : ℚ := (List.zipWith (· * ·) a b).sum

/-- `F.linear(x, weight)` / `x @ weight.T` with `weight : [out, in]`
(`gemma_torch.py` line 188, `model_mlx.py` line 183): row `o` of the result
is the dot product of `weight[o]` with `x`. -/
def linearForward (weight : List (List ℚ)) (x : List ℚ) : List ℚ :=
  weight.map (dotL x)

/-- `logits = torch.matmul(hidden_states, embedding.t())`
(`gemma_torch.py` line 70, `model_mlx.py` line 67) for one batch row:
one logit per vocabulary entry. -/
def logitsOf (embedding : List (List ℚ)) (h : List ℚ) : List ℚ :=
  embedding.map (dotL h)

/-- `torch.softmax(logits, dim=-1)` (`gemma_torch.py` line 82,
`model_mlx.py` line 79), with the exponential function `E` as an explicit
parameter: entry `i` is `E logits[i] / Σ_j E logits[j]`. -/
def softmaxE (E : ℚ → ℚ) (l : List ℚ) : List ℚ :=
  l.map (fun v => E v / (l.map E).sum)

/-- `torch.argmax(logits, dim=-1)` (`gemma_torch.py` line 77,
`model_mlx.py` line 74): index of the first maximal entry. -/
def argmaxIdx : List ℚ → ℕ
  | [] => 0
  | x :: xs => if xs.all (fun y => decide (y ≤ x)) then 0 else argmaxIdx xs + 1

/-- Pair each entry with its position, starting at `n` (the index output of
`torch.sort` / `mxc.argsort` refers to these original positions). -/
def enumFromQ (n : ℕ) : List ℚ → List (ℕ × ℚ)
  | [] => []
  | x :: xs => (n, x) :: enumFromQ (n + 1) xs

/-- Insert an `(index, value)` pair into a list sorted by value descending,
keeping earlier original positions first on ties (stable). -/
def insertDesc (p : ℕ × ℚ) : List (ℕ × ℚ) → List (ℕ × ℚ)
  | [] => [p]
  | q :: qs => if q.2 ≤ p.2 then p :: q :: qs else q :: insertDesc p qs

/-- Sort `(index, value)` pairs by value descending (stable insertion
sort). -/
def sortPairsDesc : List (ℕ × ℚ) → List (ℕ × ℚ)
  | [] => []
  | p :: ps => insertDesc p (sortPairsDesc ps)

/-- `torch.sort(probs, dim=-1, descending=True)` (`gemma_torch.py`
line 83): the value components are `probs_sort`, the index components are
`probs_idx`. -/
def sortDescPairs (l : List ℚ) : List (ℕ × ℚ) :=
  sortPairsDesc (enumFromQ 0 l)

/-- Insert an `(index, value)` pair into a list sorted by value ascending
(stable). -/
def insertAsc (p : ℕ × ℚ) : List (ℕ × ℚ) → List (ℕ × ℚ)
  | [] => [p]
  | q :: qs => if p.2 ≤ q.2 then p :: q :: qs else q :: insertAsc p qs

/-- Sort `(index, value)` pairs by value ascending (stable insertion
sort). -/
def sortPairsAsc : List (ℕ × ℚ) → List (ℕ × ℚ)
  | [] => []
  | p :: ps => insertAsc p (sortPairsAsc ps)

/-- `mxc.sort(probs, axis=-1)` / `mxc.argsort(probs, axis=-1)`
(`model_mlx.py` lines 80-81): ascending sort with the permutation. -/
def sortAscPairs (l : List ℚ) : List (ℕ × ℚ) :=
  sortPairsAsc (enumFromQ 0 l)

/-- Inclusive prefix sums continued from the accumulator `acc`. -/
def cumsumFrom (acc : ℚ) : List ℚ → List ℚ
  | [] => []
  | p :: rest => (acc + p) :: cumsumFrom (acc + p) rest

/-- `torch.cumsum(probs_sort, dim=-1)` (`gemma_torch.py` line 89):
inclusive running prefix sums. -/
def cumsum (l : List ℚ) : List ℚ := cumsumFrom 0 l

/-- `mxc.cumsum(probs_sort, axis=-1, reverse=True)` (`model_mlx.py`
line 88): inclusive running suffix sums. -/
def cumsumRev : List ℚ → List ℚ
  | [] => []
  | p :: rest => (p + (cumsumRev rest).headD 0) :: cumsumRev rest

/-- Position of `v` in a list of indices (`torch.argsort(probs_idx)`
applied to a permutation answers exactly this query). -/
def posOf (v : ℕ) : List ℕ → ℕ
  | [] => 0
  | i :: is => if i = v then 0 else posOf v is + 1

/-- `torch.gather(probs_sort, dim=-1, index=torch.argsort(probs_idx))`
(`gemma_torch.py` line 104): entry `v` of the result is the entry of
`vals` at the position where `v` occurs in the permutation `idx`. -/
def gatherByIdx (idx : List ℕ) (vals : List ℚ) (n : ℕ) : List ℚ :=
  (List.range n).map (fun v => vals.getD (posOf v idx) 0)

/-- Inverse-CDF model of the single categorical draw performed by
`torch.multinomial(probs, num_samples=1)` (`gemma_torch.py` line 106) and
`np.random.choice(len(probs[0]), size=1, p=np_probs)` (`model_mlx.py`
line 108): given the uniform random number `u ∈ [0,1)`, return the least
index whose inclusive prefix sum exceeds `u`. -/
def drawFrom : List ℚ → ℚ → ℕ
  | [], _ => 0
  | p :: rest, u => if u < p then 0 else drawFrom rest (u - p) + 1

/-- `probs_sort` after the top-p and top-k masks of `Sampler.forward`
(`gemma_torch.py` lines 89-99): an entry is zeroed when the probability
mass strictly before it exceeds `topP` (`(probs_sum - probs_sort) > top_ps`),
and independently when its sorted rank is `≥ topK`
(`torch.where(mask, 0, probs_sort)` is fused with its mask here). -/
def filteredSortedProbs (probs : List ℚ) (topP : ℚ) (topK : ℕ) : List ℚ :=
  let probsSort := (sortDescPairs probs).map (·.2)
  let s1 := List.zipWith (fun s p => if s - p > topP then 0 else p)
    (cumsum probsSort) probsSort
  List.zipWith (fun (i : ℕ) p => if topK ≤ i then 0 else p)
    (List.range probsSort.length) s1

/-- The temperature branch of `Sampler.forward` after the softmax
(`gemma_torch.py` lines 83-107): sort descending, apply the top-p and
top-k masks, renormalize by the surviving mass
(`probs_sort.div_(probs_sort.sum(...))`), map back to vocabulary order
through the stored permutation, and draw once.  `n` is the vocabulary
size. -/
def samplerRest (probs : List ℚ) (topP : ℚ) (topK : ℕ) (u : ℚ) (n : ℕ) : ℕ :=
  let pairs := sortDescPairs probs
  let s2 := filteredSortedProbs probs topP topK
  let renorm := s2.map (· / s2.sum)
  drawFrom (gatherByIdx (pairs.map (·.1)) renorm n) u

/-- `Sampler.forward` (`gemma_torch.py` lines 55-107) for one batch row:
select the hidden state at `outputPos`, compute the logits against the
(tied, possibly dequantized) embedding matrix, return `argmax` when
`temperature` is `none`, otherwise temperature-scale, softmax and run the
filtered categorical draw. -/
def samplerForward (E : ℚ → ℚ) (embedding : List (List ℚ))
    (hiddenStates : List (List ℚ)) (outputPos : ℕ) (temperature : Option ℚ)
    (topP : ℚ) (topK : ℕ) (u : ℚ) : ℕ :=
  let h := hiddenStates.getD outputPos []
  let logits := logitsOf embedding h
  match temperature with
  | none => argmaxIdx logits
  | some T => samplerRest (softmaxE E (logits.map (· / T))) topP topK u
      embedding.length

/-- The temperature branch of `MLXSampler.__call__` after the softmax
(`model_mlx.py` lines 79-109): the code sorts ascending, computes the
reverse-cumulative top-p mask and a top-k mask zeroing ascending ranks
`< topK`, renormalizes the sorted filtered vector — and then draws from
the original unsorted `probs` (`np.random.choice(..., p = np_probs)`
where `np_probs` is built from `probs`, line 107; the gather through the
sort permutation at line 106 is commented out), so the filtered vector is
computed but never used for the draw. -/
def mlxSamplerRest (probs : List ℚ) (topP : ℚ) (topK : ℕ) (u : ℚ) : ℕ :=
  let probsSort := (sortAscPairs probs).map (·.2)
  let s1 := List.zipWith (fun s p => if s - p > topP then 0 else p)
    (cumsumRev probsSort) probsSort
  let s2 := List.zipWith (fun (i : ℕ) p => if i < topK then 0 else p)
    (List.range probsSort.length) s1
  let _renorm := s2.map (· / s2.sum)
  drawFrom probs u

/-- `MLXSampler.__call__` (`model_mlx.py` lines 52-109) for one batch
row.  The greedy branch (line 74) is
`mxc.argmax(logits, dim=-1).squeeze(dim=-1)`: both calls pass PyTorch's
`dim=` keyword, which MLX's `argmax`/`squeeze` (keyword `axis=`, used
correctly everywhere else in the file) reject, so this path raises
`TypeError` instead of producing a token id — modelled by `none`.  The
temperature branch runs to completion and returns `some` token id. -/
def mlxSamplerForward (E : ℚ → ℚ) (embedding : List (List ℚ))
    (hiddenStates : List (List ℚ)) (outputPos : ℕ) (temperature : Option ℚ)
    (topP : ℚ) (topK : ℕ) (u : ℚ) : Option ℕ :=
  let h := hiddenStates.getD outputPos []
  let logits := logitsOf embedding h
  match temperature with
  | none => none
  | some T =>
    some (mlxSamplerRest (softmaxE E (logits.map (· / T))) topP topK u)

/-- `apply_rotary_emb` (`gemma_torch.py` lines 40-46) and
`MLXapply_rotary_emb` (`model_mlx.py` lines 28-43) restricted to one
`head_dim` vector (the surrounding transposes only permute the batch,
head and sequence axes; the arithmetic acts on the last axis).  `freqs`
is the `(cos, sin)` pair per half-index.  The last dimension is split
into halves (`torch.chunk(..., 2, dim=-1)` / the two slices in the MLX
code), each half-index is rotated by complex multiplication with
`freqs_cis`, and the rotated halves are reassembled by
`torch.cat(torch.chunk(x_out, 2, dim=-1), dim=-2)` followed by `reshape`
(MLX: the two `[..., None]` slices, `mxc.concatenate(..., axis=3)` and
`reshape`), which lays out all real parts first and then all imaginary
parts. -/
def applyRotaryEmb (x : List ℚ) (freqs : List (ℚ × ℚ)) : List ℚ :=
  let d2 := x.length / 2
  let xr := x.take d2
  let xi := x.drop d2
  let outr := List.zipWith (fun (a : ℚ × ℚ) (f : ℚ × ℚ) =>
    a.1 * f.1 - a.2 * f.2) (xr.zip xi) freqs
  let outi := List.zipWith (fun (a : ℚ × ℚ) (f : ℚ × ℚ) =>
    a.2 * f.1 + a.1 * f.2) (xr.zip xi) freqs
  outr ++ outi

/-- The output layout asserted by the claim: channel `2i` holds
`real[i]*cos_i - imag[i]*sin_i` and channel `2i+1` holds
`imag[i]*cos_i + real[i]*sin_i`, with the shape preserved. -/
def interleavedRotaryLayout (x : List ℚ) (freqs : List (ℚ × ℚ))
    (out : List ℚ) : Prop :=
  out.length = x.length ∧ ∀ i < x.length / 2,
    out.getD (2 * i) 0 =
      x.getD i 0 * (freqs.getD i (0, 0)).1 -
        x.getD (x.length / 2 + i) 0 * (freqs.getD i (0, 0)).2 ∧
    out.getD (2 * i + 1) 0 =
      x.getD (x.length / 2 + i) 0 * (freqs.getD i (0, 0)).1 +
        x.getD i 0 * (freqs.getD i (0, 0)).2

/-- The layout the code actually produces: channel `i` holds the rotated
real part `real[i]*cos_i - imag[i]*sin_i` and channel `d/2 + i` holds the
rotated imaginary part `imag[i]*cos_i + real[i]*sin_i`. -/
def halfConcatRotaryLayout (x : List ℚ) (freqs : List (ℚ × ℚ))
    (out : List ℚ) : Prop :=
  out.length = x.length ∧ ∀ i < x.length / 2,
    out.getD i 0 =
      x.getD i 0 * (freqs.getD i (0, 0)).1 -
        x.getD (x.length / 2 + i) 0 * (freqs.getD i (0, 0)).2 ∧
    out.getD (x.length / 2 + i) 0 =
      x.getD (x.length / 2 + i) 0 * (freqs.getD i (0, 0)).1 +
        x.getD i 0 * (freqs.getD i (0, 0)).2

end Gemma

namespace Gemma

theorem getD_zipWith {α β γ : Type} (f : α → β → γ) (da : α) (db : β)
    (dc : γ) : ∀ (a : List α) (b : List β) (i : ℕ), i < a.length →
    i < b.length →
    (List.zipWith f a b).getD i dc = f (a.getD i da) (b.getD i db)
  | _ :: _, _ :: _, 0, _, _ => rfl
  | _ :: as, _ :: bs, i + 1, ha, hb =>
    getD_zipWith f da db dc as bs i (Nat.lt_of_succ_lt_succ ha)
      (Nat.lt_of_succ_lt_succ hb)

theorem getD_zip {α β : Type} (da : α) (db : β) :
    ∀ (a : List α) (b : List β) (i : ℕ), i < a.length → i < b.length →
    (a.zip b).getD i (da, db) = (a.getD i da, b.getD i db)
  | _ :: _, _ :: _, 0, _, _ => rfl
  | _ :: as, _ :: bs, i + 1, ha, hb =>
    getD_zip da db as bs i (Nat.lt_of_succ_lt_succ ha)
      (Nat.lt_of_succ_lt_succ hb)

theorem getD_take {α : Type} (d : α) :
    ∀ (l : List α) (n i : ℕ), i < n → (l.take n).getD i d = l.getD i d
  | [], _, _, _ => by simp
  | _ :: _, _ + 1, 0, _ => rfl
  | x :: l, n + 1, i + 1, h => by
    simpa using getD_take d l n i (Nat.lt_of_succ_lt_succ h)

theorem getD_drop {α : Type} (d : α) :
    ∀ (l : List α) (n i : ℕ), (l.drop n).getD i d = l.getD (n + i) d
  | _, 0, _ => by simp
  | [], _ + 1, _ => by simp
  | x :: l, n + 1, i => by
    have hni : n + 1 + i = (n + i) + 1 := by omega
    rw [List.drop_succ_cons, getD_drop d l n i, hni, List.getD_cons_succ]

/-- Claim C3 counterexample: on the input vector `[0,1,0,0]` with rotation
angles `cos = 1, sin = 0` (the identity rotation), both source variants
return `[0,1,0,0]` (half-concatenated layout: channel `i` is the real
part `i`, channel `d/2+i` the imaginary part `i`), whereas the claimed
interleaved layout would require channel `2` to hold
`real[1]*cos_1 - imag[1]*sin_1 = 1`.  The claim's layout is false of the
code. -/
theorem rotary_interleaved_layout_cex :
    ¬ interleavedRotaryLayout [0, 1, 0, 0] [(1, 0), (1, 0)]
      (applyRotaryEmb [0, 1, 0, 0] [(1, 0), (1, 0)]) := by
  rintro ⟨-, hch⟩
  have h1 := hch 1 (by norm_num)
  norm_num [applyRotaryEmb] at h1

/-- Claim C3, amended: for an even `head_dim` input vector and matching
rotary slice, both variants return a vector of the same length in which
channel `i` (for `i < d/2`) holds `real[i]*cos_i - imag[i]*sin_i` and
channel `d/2 + i` holds `imag[i]*cos_i + real[i]*sin_i`, where `real` is
the first half and `imag` the second half of the input's last dimension:
the rotated halves are concatenated, not interleaved. -/
theorem rotary_half_concat_layout (x : List ℚ) (freqs : List (ℚ × ℚ))
    (hev : x.length % 2 = 0) (hf : freqs.length = x.length / 2) :
    halfConcatRotaryLayout x freqs (applyRotaryEmb x freqs) := by
  obtain ⟨d2, hxlen⟩ : ∃ d2, x.length = 2 * d2 :=
    ⟨x.length / 2, by omega⟩
  have hq : x.length / 2 = d2 := by omega
  have hf2 : freqs.length = d2 := by rw [hf, hq]
  have hdle : d2 ≤ x.length := by omega
  have hxr : (x.take d2).length = d2 := by
    simp [List.length_take]
    omega
  have hxi : (x.drop d2).length = d2 := by
    simp [List.length_drop]
    omega
  have hzip : ((x.take d2).zip (x.drop d2)).length = d2 := by
    simp [List.length_zip, hxr, hxi]
  have houtr : (List.zipWith (fun (a : ℚ × ℚ) (f : ℚ × ℚ) =>
      a.1 * f.1 - a.2 * f.2) ((x.take d2).zip (x.drop d2)) freqs).length
      = d2 := by
    simp [List.length_zipWith, hzip, hf2]
  have houti : (List.zipWith (fun (a : ℚ × ℚ) (f : ℚ × ℚ) =>
      a.2 * f.1 + a.1 * f.2) ((x.take d2).zip (x.drop d2)) freqs).length
      = d2 := by
    simp [List.length_zipWith, hzip, hf2]
  unfold halfConcatRotaryLayout applyRotaryEmb
  simp only [hq]
  constructor
  · rw [List.length_append, houtr, houti]
    omega
  · intro i hi
    constructor
    · rw [List.getD_append _ _ _ _ (by rw [houtr]; exact hi)]
      rw [getD_zipWith _ ((0 : ℚ), (0 : ℚ)) ((0 : ℚ), (0 : ℚ)) _ _ _ _
        (by rw [hzip]; exact hi) (by rw [hf2]; exact hi)]
      rw [getD_zip (0 : ℚ) (0 : ℚ) _ _ _ (by rw [hxr]; exact hi)
        (by rw [hxi]; exact hi)]
      rw [getD_take _ _ _ _ hi, getD_drop]
    · rw [List.getD_append_right _ _ _ _ (by rw [houtr]; omega)]
      rw [houtr]
      have hsub : d2 + i - d2 = i := by omega
      rw [hsub]
      rw [getD_zipWith _ ((0 : ℚ), (0 : ℚ)) ((0 : ℚ), (0 : ℚ)) _ _ _ _
        (by rw [hzip]; exact hi) (by rw [hf2]; exact hi)]
      rw [getD_zip (0 : ℚ) (0 : ℚ) _ _ _ (by rw [hxr]; exact hi)
        (by rw [hxi]; exact hi)]
      rw [getD_take _ _ _ _ hi, getD_drop]

/-- Witness for `rotary_half_concat_layout` at the concrete input
`x = [1,2,3,4]`, `freqs = [(5,7),(11,13)]`. -/
theorem rotary_half_concat_layout_witness :
    ([(1 : ℚ), 2, 3, 4].length % 2 = 0 ∧
      [((5 : ℚ), (7 : ℚ)), (11, 13)].length = [(1 : ℚ), 2, 3, 4].length / 2) ∧
    halfConcatRotaryLayout [1, 2, 3, 4] [(5, 7), (11, 13)]
      (applyRotaryEmb [1, 2, 3, 4] [(5, 7), (11, 13)]) :=
  ⟨⟨by simp, by simp⟩,
    rotary_half_concat_layout [1, 2, 3, 4] [(5, 7), (11, 13)]
      (by simp) (by simp)⟩

/-- Claim C5: the PyTorch greedy path (`gemma_torch.py` lines 76-77)
returns `argmax(logits)` directly, independent of the top-p threshold,
the top-k bound and the random draw, and identical inputs give identical
token ids — but the MLX greedy path (`model_mlx.py` line 74) passes
PyTorch's `dim=` keyword to MLX's `argmax`/`squeeze` and raises
`TypeError` instead of returning any token id, so for the MLX variant
the claim fails: the call produces no argmax at all. -/
theorem greedy_torch_argmax_mlx_errors (E : ℚ → ℚ)
    (embedding : List (List ℚ)) (hiddenStates : List (List ℚ))
    (outputPos : ℕ) (topP topP' : ℚ) (topK topK' : ℕ) (u u' : ℚ) :
    samplerForward E embedding hiddenStates outputPos none topP topK u =
      argmaxIdx (logitsOf embedding (hiddenStates.getD outputPos [])) ∧
    samplerForward E embedding hiddenStates outputPos none topP topK u =
      samplerForward E embedding hiddenStates outputPos none topP' topK' u' ∧
    mlxSamplerForward E embedding hiddenStates outputPos none topP topK u =
      none :=
  ⟨rfl, rfl, rfl⟩

/-- `.view(batch_size, -1, num_heads, head_dim)` for one position row:
split a `heads * head_dim` projection output into `head_dim` chunks per
head (`gemma_torch.py` lines 261-263, `model_mlx.py` lines 247-249). -/
def reshapeHeads (v : List ℚ) (nHeads dHead : ℕ) : List (List ℚ) :=
  (List.range nHeads).map (fun h => (v.drop (h * dHead)).take dHead)

/-- The rotary-embedded keys `xk` of `GemmaAttention.forward`
(`gemma_torch.py` lines 259, 262, 267): per position, project the hidden
row through `k_proj`, reshape to `[num_kv_heads, head_dim]`, and apply
the rotary embedding with that position's `freqs_cis` slice. -/
def attnKeysRot (Wk : List (List ℚ)) (hidden : List (List ℚ))
    (freqs : List (List (ℚ × ℚ))) (nKV dHead : ℕ) : List (List (List ℚ)) :=
  List.zipWith (fun hrow f =>
    (reshapeHeads (linearForward Wk hrow) nKV dHead).map
      (fun hv => applyRotaryEmb hv f)) hidden freqs

/-- The values `xv` of `GemmaAttention.forward` (`gemma_torch.py`
lines 260, 263): no rotary embedding is applied to values. -/
def attnValues (Wv : List (List ℚ)) (hidden : List (List ℚ))
    (nKV dHead : ℕ) : List (List (List ℚ)) :=
  hidden.map (fun hrow => reshapeHeads (linearForward Wv hrow) nKV dHead)

/-- `k_cache.index_copy_(1, kv_write_indices, xk)` (`gemma_torch.py`
lines 273-274) on one batch row: row `j` of `rows` is written to position
`idxs[j]` of the cache. -/
def indexCopy {α : Type} (cache : List α) (idxs : List ℕ)
    (rows : List α) : List α :=
  (idxs.zip rows).foldl (fun c p => c.set p.1 p.2) cache

/-- The key-cache state after `GemmaAttention.forward` (`gemma_torch.py`
line 273): this is the only assignment to the cache in the call. -/
def attnKCacheNext (Wk : List (List ℚ)) (hidden : List (List ℚ))
    (freqs : List (List (ℚ × ℚ))) (nKV dHead : ℕ) (idxs : List ℕ)
    (kCache : List (List (List ℚ))) : List (List (List ℚ)) :=
  indexCopy kCache idxs (attnKeysRot Wk hidden freqs nKV dHead)

/-- The value-cache state after `GemmaAttention.forward` (`gemma_torch.py`
line 274). -/
def attnVCacheNext (Wv : List (List ℚ)) (hidden : List (List ℚ))
    (nKV dHead : ℕ) (idxs : List ℕ)
    (vCache : List (List (List ℚ))) : List (List (List ℚ)) :=
  indexCopy vCache idxs (attnValues Wv hidden nKV dHead)

/-- `k_cache[:, kv_write_indices, ...] = xk[:, kv_write_indices, ...]`
(`model_mlx.py` lines 259-260) on one batch row: for each listed position
`i`, cache row `i` is overwritten with `src` row `i` — the source is
indexed by the absolute position itself, not by the row number of this
call (reading past the end of `src` is modelled by the default `dflt`,
matching MLX's undefined out-of-bounds gather). -/
def mlxSliceAssign {α : Type} (cache : List α) (idxs : List ℕ)
    (src : List α) (dflt : α) : List α :=
  idxs.foldl (fun c i => c.set i (src.getD i dflt)) cache

/-- The rotary-embedded keys `xk` of `MLXGemmaAttention.__call__`
(`model_mlx.py` lines 243-253): the fused `qkv_proj` output is sliced at
`[q_size, q_size + kv_size)`, reshaped and rotated. -/
def mlxAttnKeysRot (Wqkv : List (List ℚ)) (hidden : List (List ℚ))
    (freqs : List (List (ℚ × ℚ))) (qSize kvSize nKV dHead : ℕ) :
    List (List (List ℚ)) :=
  List.zipWith (fun hrow f =>
    (reshapeHeads (((linearForward Wqkv hrow).drop qSize).take kvSize)
      nKV dHead).map (fun hv => applyRotaryEmb hv f)) hidden freqs

/-- The key-cache state after `MLXGemmaAttention.__call__`
(`model_mlx.py` line 259). -/
def mlxAttnKCacheNext (Wqkv : List (List ℚ)) (hidden : List (List ℚ))
    (freqs : List (List (ℚ × ℚ))) (qSize kvSize nKV dHead : ℕ)
    (idxs : List ℕ) (kCache : List (List (List ℚ))) :
    List (List (List ℚ)) :=
  mlxSliceAssign kCache idxs
    (mlxAttnKeysRot Wqkv hidden freqs qSize kvSize nKV dHead) []

theorem getD_map_of_lt {α β : Type} (f : α → β) (da : α) (db : β) :
    ∀ (l : List α) (i : ℕ), i < l.length →
    (l.map f).getD i db = f (l.getD i da)
  | _ :: _, 0, _ => rfl
  | _ :: l, i + 1, h => by
    rw [List.map_cons, List.getD_cons_succ, List.getD_cons_succ]
    exact getD_map_of_lt f da db l i (by simpa using h)

theorem getD_set_ne {α : Type} (d v : α) :
    ∀ (l : List α) (i j : ℕ), i ≠ j → (l.set i v).getD j d = l.getD j d
  | [], _, _, _ => by simp
  | x :: l, 0, 0, h => absurd rfl h
  | x :: l, 0, j + 1, _ => by simp [List.set_cons_zero]
  | x :: l, i + 1, 0, _ => by simp [List.set_cons_succ]
  | x :: l, i + 1, j + 1, h => by
    rw [List.set_cons_succ, List.getD_cons_succ, List.getD_cons_succ]
    exact getD_set_ne d v l i j (by omega)

theorem getD_set_self {α : Type} (d v : α) :
    ∀ (l : List α) (i : ℕ), i < l.length → (l.set i v).getD i d = v
  | x :: l, 0, _ => rfl
  | x :: l, i + 1, h => by
    rw [List.set_cons_succ, List.getD_cons_succ]
    exact getD_set_self d v l i (by simpa using h)

theorem indexCopy_getD_of_notMem {α : Type} (d : α) :
    ∀ (idxs : List ℕ) (rows : List α) (cache : List α) (p : ℕ),
    p ∉ idxs → (indexCopy cache idxs rows).getD p d = cache.getD p d
  | [], _, _, _, _ => rfl
  | _ :: _, [], _, _, _ => rfl
  | i :: is, r :: rs, cache, p, hp => by
    have hpi : p ≠ i := fun h => hp (h ▸ List.mem_cons_self i is)
    have hpis : p ∉ is := fun h => hp (List.mem_cons_of_mem i h)
    show (indexCopy (cache.set i r) is rs).getD p d = cache.getD p d
    rw [indexCopy_getD_of_notMem d is rs (cache.set i r) p hpis]
    exact getD_set_ne d r cache i p (fun h => hpi h.symm)

theorem indexCopy_getD_written {α : Type} (d : α) :
    ∀ (idxs : List ℕ) (rows : List α) (cache : List α) (j : ℕ),
    idxs.Nodup → j < idxs.length → j < rows.length →
    idxs.getD j 0 < cache.length →
    (indexCopy cache idxs rows).getD (idxs.getD j 0) d = rows.getD j d
  | i :: is, r :: rs, cache, 0, hnd, _, _, hb => by
    show (indexCopy (cache.set i r) is rs).getD i d = r
    have hi : i ∉ is := (List.nodup_cons.mp hnd).1
    rw [indexCopy_getD_of_notMem d is rs (cache.set i r) i hi]
    exact getD_set_self d r cache i (by simpa using hb)
  | i :: is, r :: rs, cache, j + 1, hnd, hj, hr, hb => by
    show (indexCopy (cache.set i r) is rs).getD (is.getD j 0) d
      = rs.getD j d
    exact indexCopy_getD_written d is rs (cache.set i r) j
      (List.nodup_cons.mp hnd).2 (by simpa using hj) (by simpa using hr)
      (by simpa using hb)

/-- The PyTorch reference attention call satisfies the claim: after the
call, position `idxs[j]` of the key cache holds the rotary-embedded key
of input row `j` (likewise for the value cache and row `j`'s value), and
every position not listed in `idxs` is unchanged in both caches. -/
theorem attn_cache_write_torch (Wk Wv : List (List ℚ))
    (hidden : List (List ℚ)) (freqs : List (List (ℚ × ℚ)))
    (nKV dHead : ℕ) (idxs : List ℕ) (kCache vCache : List (List (List ℚ)))
    (hnd : idxs.Nodup) (j : ℕ) (hj : j < idxs.length)
    (hjh : j < hidden.length) (hjf : j < freqs.length)
    (hbk : idxs.getD j 0 < kCache.length)
    (hbv : idxs.getD j 0 < vCache.length) (p : ℕ) (hp : p ∉ idxs) :
    (attnKCacheNext Wk hidden freqs nKV dHead idxs kCache).getD
        (idxs.getD j 0) [] =
      (reshapeHeads (linearForward Wk (hidden.getD j [])) nKV dHead).map
        (fun hv => applyRotaryEmb hv (freqs.getD j [])) ∧
    (attnVCacheNext Wv hidden nKV dHead idxs vCache).getD
        (idxs.getD j 0) [] =
      reshapeHeads (linearForward Wv (hidden.getD j [])) nKV dHead ∧
    (attnKCacheNext Wk hidden freqs nKV dHead idxs kCache).getD p [] =
      kCache.getD p [] ∧
    (attnVCacheNext Wv hidden nKV dHead idxs vCache).getD p [] =
      vCache.getD p [] := by
  have hka : j < (attnKeysRot Wk hidden freqs nKV dHead).length := by
    simp [attnKeysRot, List.length_zipWith]
    omega
  have hva : j < (attnValues Wv hidden nKV dHead).length := by
    simp [attnValues]
    omega
  refine ⟨?_, ?_, ?_, ?_⟩
  · rw [attnKCacheNext, indexCopy_getD_written _ _ _ _ _ hnd hj hka hbk]
    rw [attnKeysRot, getD_zipWith _ [] [] [] _ _ _ hjh hjf]
  · rw [attnVCacheNext, indexCopy_getD_written _ _ _ _ _ hnd hj hva hbv]
    rw [attnValues, getD_map_of_lt _ [] [] _ _ hjh]
  · exact indexCopy_getD_of_notMem _ _ _ _ _ hp
  · exact indexCopy_getD_of_notMem _ _ _ _ _ hp

/-- Witness for `attn_cache_write_torch` at a concrete decode-step call:
one hidden row, write position `[1]`, caches of length 2. -/
theorem attn_cache_write_torch_witness :
    (([1] : List ℕ).Nodup ∧ 0 < ([1] : List ℕ).length ∧
      0 < [[(1 : ℚ), 0]].length ∧ 0 < [[((1 : ℚ), (0 : ℚ))]].length ∧
      ([1] : List ℕ).getD 0 0 < [[[(0 : ℚ), 0]], [[0, 0]]].length ∧
      ([1] : List ℕ).getD 0 0 < [[[(0 : ℚ), 0]], [[0, 0]]].length ∧
      (0 : ℕ) ∉ ([1] : List ℕ)) ∧
    (attnKCacheNext [[5, 0], [0, 0]] [[(1 : ℚ), 0]] [[(1, 0)]] 1 2 [1]
        [[[0, 0]], [[0, 0]]]).getD (([1] : List ℕ).getD 0 0) [] =
      (reshapeHeads (linearForward [[5, 0], [0, 0]]
          (([[(1 : ℚ), 0]]).getD 0 [])) 1 2).map
        (fun hv => applyRotaryEmb hv (([[((1 : ℚ), (0 : ℚ))]]).getD 0 [])) := by
  refine ⟨⟨by simp, by simp, by simp, by simp, by simp, by simp, by simp⟩, ?_⟩
  exact (attn_cache_write_torch [[5, 0], [0, 0]] [[5, 0], [0, 0]]
    [[(1 : ℚ), 0]] [[(1, 0)]] 1 2 [1] [[[0, 0]], [[0, 0]]]
    [[[0, 0]], [[0, 0]]] (by simp) 0 (by simp) (by simp) (by simp)
    (by simp) (by simp) 0 (by simp)).1

/-- Claim C1: a decode-step call of the MLX attention (one hidden row,
absolute write position 1) leaves the cache WITHOUT the newly computed
rotary-embedded key, because `k_cache[:, idxs] = xk[:, idxs]` reads the
source at the absolute position instead of at the call-local row number;
the PyTorch `index_copy_` semantics on the same inputs writes the key as
the claim states.  Configuration: `hidden_size = 2`, one query head, one
kv head, `head_dim = 2`, so `q_size = 2`, `kv_size = 2` and the fused
`qkv_proj` weight has 6 output rows. -/
theorem mlx_attention_cache_write_misindexed :
    (mlxAttnKCacheNext [[0, 0], [0, 0], [5, 0], [0, 0], [0, 0], [0, 0]]
        [[(1 : ℚ), 0]] [[(1, 0)]] 2 2 1 2 [1]
        [[[0, 0]], [[0, 0]]]).getD 1 [] ≠
      (mlxAttnKeysRot [[0, 0], [0, 0], [5, 0], [0, 0], [0, 0], [0, 0]]
        [[(1 : ℚ), 0]] [[(1, 0)]] 2 2 1 2).getD 0 [] ∧
    (indexCopy [[[0, 0]], [[0, 0]]] [1]
        (mlxAttnKeysRot [[0, 0], [0, 0], [5, 0], [0, 0], [0, 0], [0, 0]]
          [[(1 : ℚ), 0]] [[(1, 0)]] 2 2 1 2)).getD 1 [] =
      (mlxAttnKeysRot [[0, 0], [0, 0], [5, 0], [0, 0], [0, 0], [0, 0]]
        [[(1 : ℚ), 0]] [[(1, 0)]] 2 2 1 2).getD 0 [] := by
  norm_num [mlxAttnKCacheNext, mlxSliceAssign, mlxAttnKeysRot, indexCopy,
    reshapeHeads, linearForward, dotL, applyRotaryEmb, List.range_succ]

/-- With two equal logits, the softmax is the uniform pair `[1/2, 1/2]`
for any nonvanishing exponential. -/
theorem softmaxE_pair00 (E : ℚ → ℚ) (hE : E 0 ≠ 0) :
    softmaxE E [0, 0] = [1 / 2, 1 / 2] := by
  have hs : [E 0, E 0].sum = 2 * E 0 := by
    simp [List.sum_cons, List.sum_nil]
    ring
  have hval : E 0 / (2 * E 0) = 1 / 2 := by
    rw [div_eq_div_iff (mul_ne_zero two_ne_zero hE) (by norm_num)]
    ring
  simp only [softmaxE, List.map_cons, List.map_nil, hs, hval]

/-- Claim C2: MLX sampler on equal logits (`embedding = [[0],[0]]`,
`hidden = [[1]]`), temperature 1, `top_p = 1`, `top_k = 1`, draw
`u = 3/4`.  The claimed pipeline zeroes sorted rank 1 (the filtered
sorted vector is `[1/2, 0]`), yet the MLX code returns token 1 — it
draws from the raw softmax.  The PyTorch reference on the same inputs
returns the surviving top candidate, token 0. -/
theorem mlx_sampler_draws_from_unfiltered (E : ℚ → ℚ) (hE : E 0 ≠ 0) :
    mlxSamplerForward E [[0], [0]] [[1]] 0 (some 1) 1 1 (3 / 4) = some 1 ∧
    filteredSortedProbs (softmaxE E [0, 0]) 1 1 = [1 / 2, 0] ∧
    samplerForward E [[0], [0]] [[1]] 0 (some 1) 1 1 (3 / 4) = 0 := by
  have hl : (logitsOf [[(0 : ℚ)], [0]]
      (([[(1 : ℚ)]] : List (List ℚ)).getD 0 [])).map (· / (1 : ℚ))
      = [0, 0] := by
    norm_num [logitsOf, dotL]
  have hp := softmaxE_pair00 E hE
  refine ⟨?_, ?_, ?_⟩
  · show some (mlxSamplerRest (softmaxE E ((logitsOf [[(0 : ℚ)], [0]]
      (([[(1 : ℚ)]] : List (List ℚ)).getD 0 [])).map (· / (1 : ℚ)))) 1 1
      (3 / 4)) = some 1
    rw [hl, hp]
    norm_num [mlxSamplerRest, sortAscPairs, sortPairsAsc, insertAsc,
      enumFromQ, cumsumRev, drawFrom, List.range_succ]
  · rw [hp]
    norm_num [filteredSortedProbs, sortDescPairs, sortPairsDesc,
      insertDesc, enumFromQ, cumsum, cumsumFrom, List.range_succ]
  · show samplerRest (softmaxE E ((logitsOf [[(0 : ℚ)], [0]]
      (([[(1 : ℚ)]] : List (List ℚ)).getD 0 [])).map (· / (1 : ℚ)))) 1 1
      (3 / 4) ([[(0 : ℚ)], [0]] : List (List ℚ)).length = 0
    rw [hl, hp]
    norm_num [samplerRest, filteredSortedProbs, sortDescPairs,
      sortPairsDesc, insertDesc, enumFromQ, cumsum, cumsumFrom,
      gatherByIdx, posOf, drawFrom, List.range_succ]

/-- Witness for `mlx_sampler_draws_from_unfiltered` at the constant
exponential `E = fun _ => 1` (only `E 0 ≠ 0` is used). -/
theorem mlx_sampler_draws_from_unfiltered_witness :
    ((fun _ : ℚ => (1 : ℚ)) 0 ≠ 0) ∧
    (mlxSamplerForward (fun _ : ℚ => (1 : ℚ)) [[0], [0]] [[1]] 0 (some 1)
        1 1 (3 / 4) = some 1 ∧
      filteredSortedProbs (softmaxE (fun _ : ℚ => (1 : ℚ)) [0, 0]) 1 1 =
        [1 / 2, 0] ∧
      samplerForward (fun _ : ℚ => (1 : ℚ)) [[0], [0]] [[1]] 0 (some 1)
        1 1 (3 / 4) = 0) :=
  ⟨by norm_num, mlx_sampler_draws_from_unfiltered _ (by norm_num)⟩

/-- Claim C6: with `top_k = 0` every sorted probability is zeroed, the
normalization sum is 0, and neither sampler detects it: the PyTorch
reference performs the division by the zero sum (`probs_sort.div_(...)`
has no preceding check) and proceeds to the draw, which in this model
returns the out-of-vocabulary index 2 (vocabulary size 2); no explicit
error is raised anywhere in the sampler. -/
theorem sampler_zero_mass_divides_by_zero (E : ℚ → ℚ) (hE : E 0 ≠ 0) :
    filteredSortedProbs (softmaxE E [0, 0]) 1 0 = [0, 0] ∧
    (filteredSortedProbs (softmaxE E [0, 0]) 1 0).sum = 0 ∧
    samplerForward E [[0], [0]] [[1]] 0 (some 1) 1 0 (1 / 2) = 2 := by
  have hl : (logitsOf [[(0 : ℚ)], [0]]
      (([[(1 : ℚ)]] : List (List ℚ)).getD 0 [])).map (· / (1 : ℚ))
      = [0, 0] := by
    norm_num [logitsOf, dotL]
  have hp := softmaxE_pair00 E hE
  refine ⟨?_, ?_, ?_⟩
  · rw [hp]
    norm_num [filteredSortedProbs, sortDescPairs, sortPairsDesc,
      insertDesc, enumFromQ, cumsum, cumsumFrom, List.range_succ]
  · rw [hp]
    norm_num [filteredSortedProbs, sortDescPairs, sortPairsDesc,
      insertDesc, enumFromQ, cumsum, cumsumFrom, List.range_succ]
  · show samplerRest (softmaxE E ((logitsOf [[(0 : ℚ)], [0]]
      (([[(1 : ℚ)]] : List (List ℚ)).getD 0 [])).map (· / (1 : ℚ)))) 1 0
      (1 / 2) ([[(0 : ℚ)], [0]] : List (List ℚ)).length = 2
    rw [hl, hp]
    norm_num [samplerRest, filteredSortedProbs, sortDescPairs,
      sortPairsDesc, insertDesc, enumFromQ, cumsum, cumsumFrom,
      gatherByIdx, posOf, drawFrom, List.range_succ]

/-- Witness for `sampler_zero_mass_divides_by_zero` at the constant
exponential `E = fun _ => 1`. -/
theorem sampler_zero_mass_divides_by_zero_witness :
    ((fun _ : ℚ => (1 : ℚ)) 0 ≠ 0) ∧
    (filteredSortedProbs (softmaxE (fun _ : ℚ => (1 : ℚ)) [0, 0]) 1 0 =
        [0, 0] ∧
      (filteredSortedProbs (softmaxE (fun _ : ℚ => (1 : ℚ)) [0, 0]) 1
        0).sum = 0 ∧
      samplerForward (fun _ : ℚ => (1 : ℚ)) [[0], [0]] [[1]] 0 (some 1) 1
        0 (1 / 2) = 2) :=
  ⟨by norm_num, sampler_zero_mass_divides_by_zero _ (by norm_num)⟩

/-- Claim C8: `top_k = 1` on logits `[0, 1]` (`embedding = [[0],[1]]`,
`hidden = [[1]]`), temperature 1, `top_p = 1`, draw `u = 0`.  The MLX
sampler returns token 0 although token 1 has strictly higher softmax
probability (for any increasing positive exponential), because the draw
uses the unfiltered distribution.  The PyTorch reference with the
concrete exponential `q ↦ q + 2` returns the argmax token 1 on the same
inputs. -/
theorem mlx_topk1_not_argmax (E : ℚ → ℚ) (h0 : 0 < E 0)
    (h01 : E 0 < E 1) :
    mlxSamplerForward E [[0], [1]] [[1]] 0 (some 1) 1 1 0 = some 0 ∧
    (softmaxE E [0, 1]).getD 0 0 < (softmaxE E [0, 1]).getD 1 0 ∧
    samplerForward (fun q => q + 2) [[0], [1]] [[1]] 0 (some 1) 1 1 0
      = 1 := by
  have hl : (logitsOf [[(0 : ℚ)], [1]]
      (([[(1 : ℚ)]] : List (List ℚ)).getD 0 [])).map (· / (1 : ℚ))
      = [0, 1] := by
    norm_num [logitsOf, dotL]
  have hS : (0 : ℚ) < E 0 + (E 1 + 0) := by linarith
  refine ⟨?_, ?_, ?_⟩
  · show some (mlxSamplerRest (softmaxE E ((logitsOf [[(0 : ℚ)], [1]]
      (([[(1 : ℚ)]] : List (List ℚ)).getD 0 [])).map (· / (1 : ℚ)))) 1 1 0)
      = some 0
    rw [hl]
    have hdraw : drawFrom (softmaxE E [0, 1]) 0 = 0 := by
      simp only [softmaxE, List.map_cons, List.map_nil, List.sum_cons,
        List.sum_nil, drawFrom]
      rw [if_pos (div_pos h0 hS)]
    show some (drawFrom (softmaxE E [0, 1]) 0) = some 0
    rw [hdraw]
  · simp only [softmaxE, List.map_cons, List.map_nil, List.sum_cons,
      List.sum_nil, List.getD_cons_zero, List.getD_cons_succ]
    exact (div_lt_div_iff_of_pos_right hS).mpr h01
  · show samplerRest (softmaxE (fun q => q + 2)
      ((logitsOf [[(0 : ℚ)], [1]]
        (([[(1 : ℚ)]] : List (List ℚ)).getD 0 [])).map (· / (1 : ℚ)))) 1 1
      0 ([[(0 : ℚ)], [1]] : List (List ℚ)).length = 1
    norm_num [logitsOf, dotL, softmaxE, samplerRest, filteredSortedProbs,
      sortDescPairs, sortPairsDesc, insertDesc, enumFromQ, cumsum,
      cumsumFrom, gatherByIdx, posOf, drawFrom, List.range_succ]

/-- Witness for `mlx_topk1_not_argmax` at the exponential `q ↦ q + 2`. -/
theorem mlx_topk1_not_argmax_witness :
    ((0 : ℚ) < (fun q : ℚ => q + 2) 0 ∧
      (fun q : ℚ => q + 2) 0 < (fun q : ℚ => q + 2) 1) ∧
    (mlxSamplerForward (fun q : ℚ => q + 2) [[0], [1]] [[1]] 0 (some 1) 1
        1 0 = some 0 ∧
      (softmaxE (fun q : ℚ => q + 2) [0, 1]).getD 0 0 <
        (softmaxE (fun q : ℚ => q + 2) [0, 1]).getD 1 0 ∧
      samplerForward (fun q => q + 2) [[0], [1]] [[1]] 0 (some 1) 1 1 0
        = 1) :=
  ⟨⟨by norm_num, by norm_num⟩,
    mlx_topk1_not_argmax _ (by norm_num) (by norm_num)⟩

/-- The per-sequence state threaded through the decode iterations of
`GemmaForCausalLM.generate` (`gemma_torch.py` lines 497-543): the
token-id buffer (`token_ids_tensor`), the token fed to the next forward
call (`input_token_ids_tensor`, one token per sequence during decode),
and the write cursor (`output_index`). -/
structure GenLoopState where
  tokenIds : List ℤ
  inputTok : ℤ
  outputIndex : ℕ

/-- One decode iteration of the loop body (`gemma_torch.py` lines
522-543) for one sequence.  `forward` stands for the model forward pass
plus sampler (`self(...)`, line 522), producing `next_token_ids` from the
current input token and position; the buffer update is lines 534-537:
`output_token_ids = torch.where(curr_prompt_mask, curr_token_ids,
next_token_ids)` followed by `token_ids_tensor.index_copy_(1,
output_index, output_token_ids)`. -/
def genStep (promptMask : List Bool) (forward : ℤ → ℕ → ℤ)
    (st : GenLoopState) : GenLoopState :=
  let next := forward st.inputTok st.outputIndex
  let currPrompt := promptMask.getD st.outputIndex false
  let currTok := st.tokenIds.getD st.outputIndex 0
  let outTok := if currPrompt then currTok else next
  { tokenIds := st.tokenIds.set st.outputIndex outTok
    inputTok := outTok
    outputIndex := st.outputIndex + 1 }

/-- `n` decode iterations (`for i in range(max_seq_len - min_prompt_len)`,
`gemma_torch.py` line 518). -/
def genLoop (promptMask : List Bool) (forward : ℤ → ℕ → ℤ) :
    ℕ → GenLoopState → GenLoopState
  | 0, st => st
  | n + 1, st => genLoop promptMask forward n (genStep promptMask forward st)

/-- Claim C9: every position marked true by the is-prompt mask still
holds its original token after any number of decode steps — when the
write cursor reaches a prompt position, `torch.where` selects the current
(prompt) token, so the `index_copy_` rewrites it with its own value, and
no other position is written in that step. -/
theorem generate_prompt_positions_preserved (promptMask : List Bool)
    (forward : ℤ → ℕ → ℤ) :
    ∀ (n : ℕ) (st : GenLoopState) (p : ℕ), promptMask.getD p false = true →
    (genLoop promptMask forward n st).tokenIds.getD p 0 =
      st.tokenIds.getD p 0
  | 0, _, _, _ => rfl
  | n + 1, st, p, hp => by
    rw [genLoop,
      generate_prompt_positions_preserved promptMask forward n _ p hp]
    show (st.tokenIds.set st.outputIndex _).getD p 0 = st.tokenIds.getD p 0
    by_cases hop : st.outputIndex = p
    · subst hop
      rw [hp]
      simp only [if_true]
      by_cases hlen : st.outputIndex < st.tokenIds.length
      · exact getD_set_self _ _ _ _ hlen
      · rw [List.set_eq_of_length_le (by omega)]
    · exact getD_set_ne _ _ _ _ _ hop

/-- Witness for `generate_prompt_positions_preserved`: a one-position
prompt `[7]` with mask `[true]` survives two decode steps in which the
oracle always proposes token 9. -/
theorem generate_prompt_positions_preserved_witness :
    ([true].getD 0 false = true) ∧
    (genLoop [true] (fun _ _ => 9) 2
        ⟨[7], 7, 0⟩).tokenIds.getD 0 0 =
      (⟨[7], 7, 0⟩ : GenLoopState).tokenIds.getD 0 0 :=
  ⟨rfl, generate_prompt_positions_preserved [true] (fun _ _ => 9) 2
    ⟨[7], 7, 0⟩ 0 rfl⟩

/-- The stored state of `Embedding` (`gemma_torch.py` lines 110-128) and
`MLXEmbedding` (`model_mlx.py` lines 112-124): the weight matrix, the
per-row quantization scale vector, and the quantization flag. -/
structure EmbLayer where
  weight : List (List ℚ)
  weightScaler : List ℚ
  quant : Bool

/-- `Embedding.forward` (`gemma_torch.py` lines 130-135) as a state
transformer: the dequantized weight `weight * weight_scaler.unsqueeze(-1)`
is a local temporary; the stored state is returned unchanged. -/
def embeddingForwardTorch (st : EmbLayer) (x : List ℕ) :
    List (List ℚ) × EmbLayer :=
  let w := if st.quant then
    List.zipWith (fun s row => row.map (· * s)) st.weightScaler st.weight
    else st.weight
  (x.map (fun t => w.getD t []), st)

/-- `MLXEmbedding.__call__` (`model_mlx.py` lines 126-130) as a state
transformer: when `quant` is set, the code executes
`self.embedding.weight = self.embedding.weight * self.weight_scaler[:, None]`,
reassigning the STORED weight before the lookup. -/
def mlxEmbeddingForward (st : EmbLayer) (x : List ℕ) :
    List (List ℚ) × EmbLayer :=
  let wq := List.zipWith (fun s row => row.map (· * s)) st.weightScaler
    st.weight
  let st' := if st.quant then { st with weight := wq } else st
  (x.map (fun t => st'.weight.getD t []), st')

/-- The stored state of `Linear` (`gemma_torch.py` lines 163-182). -/
structure LinLayer where
  weight : List (List ℚ)
  weightScaler : List ℚ
  quant : Bool

/-- `Linear.forward` (`gemma_torch.py` lines 184-189) as a state
transformer: the dequantized weight is a local temporary (`weight =
self.weight; if quant: weight = weight * scaler`); the stored state is
returned unchanged. -/
def linearForwardTorch (st : LinLayer) (x : List ℚ) : List ℚ × LinLayer :=
  let w := if st.quant then
    List.zipWith (fun s row => row.map (· * s)) st.weightScaler st.weight
    else st.weight
  (linearForward w x, st)

/-- Claim C7: the MLX embedding call with `quant = true` mutates the
stored weight — starting from `weight = [[1]]`, `scaler = [2]`, one call
leaves `[[2]]` and a second call leaves `[[4]]` (the dequantization
compounds instead of being a temporary); the PyTorch embedding and
linear layers return their state unchanged on every call. -/
theorem mlx_embedding_mutates_weight :
    (mlxEmbeddingForward ⟨[[1]], [2], true⟩ [0]).2.weight = [[2]] ∧
    (mlxEmbeddingForward
        (mlxEmbeddingForward ⟨[[1]], [2], true⟩ [0]).2 [0]).2.weight
      = [[4]] ∧
    (embeddingForwardTorch ⟨[[1]], [2], true⟩ [0]).2 =
      (⟨[[1]], [2], true⟩ : EmbLayer) ∧
    (∀ (st : EmbLayer) (x : List ℕ), (embeddingForwardTorch st x).2 = st) ∧
    (∀ (st : LinLayer) (x : List ℚ), (linearForwardTorch st x).2 = st) := by
  refine ⟨?_, ?_, rfl, fun st x => rfl, fun st x => rfl⟩
  · norm_num [mlxEmbeddingForward]
  · norm_num [mlxEmbeddingForward]

/-- The numeric precision tags of the tensors flowing through the
normalization layers (`config.dtype`; `torch.float` casts, `type_as`,
`mxc.float32` casts, `astype`). -/
inductive DType where
  | float16 : DType
  | bfloat16 : DType
  | float32 : DType
deriving DecidableEq

/-- A tensor with a dtype tag.  The values are idealized as exact reals;
the tag records which precision the source code computes in, so the
cast structure of the code is visible even though casts are
value-preserving in this model. -/
structure MTensor where
  dtype : DType
  data : List ℝ

/-- `x.float()` (`gemma_torch.py` line 154) / `x.astype(mxc.float32)`
(`model_mlx.py` line 154). -/
noncomputable def tFloat (x : MTensor) : MTensor := ⟨DType.float32, x.data⟩

/-- `y.type_as(x)` / `y.astype(dt)`: retag with the target dtype. -/
noncomputable def tCast (y : MTensor) (dt : DType) : MTensor := ⟨dt, y.data⟩

/-- `x.pow(2).mean(-1)` (`gemma_torch.py` line 151; `model_mlx.py`
lines 149-150). -/
noncomputable def meanSq (l : List ℝ) : ℝ := (l.map (fun v => v ^ 2)).sum / l.length

/-- `RMSNorm._norm` (`gemma_torch.py` lines 150-151) /
`MLXRMSNorm._norm` (`model_mlx.py` lines 148-151):
`x * torch.rsqrt(x.pow(2).mean(-1) + eps)` with `rsqrt t = 1 / sqrt t`. -/
noncomputable def rmsNormKernel (eps : ℝ) (t : MTensor) : MTensor :=
  ⟨t.dtype, t.data.map (fun v => v * (Real.sqrt (meanSq t.data + eps))⁻¹)⟩

/-- `RMSNorm.forward` (`gemma_torch.py` lines 153-160):
`x = self._norm(x.float()).type_as(x)` — the argument of `type_as` is the
ORIGINAL input, so the result is cast back to the input dtype — then
multiply by `1 + weight` or by `weight` according to the per-instance
unit-offset flag. -/
noncomputable def rmsNormForward (eps : ℝ) (addUnitOffset : Bool) (weight : List ℝ)
    (x : MTensor) : MTensor :=
  let xn := tCast (rmsNormKernel eps (tFloat x)) x.dtype
  if addUnitOffset then
    ⟨xn.dtype, List.zipWith (fun a w => a * (1 + w)) xn.data weight⟩
  else
    ⟨xn.dtype, List.zipWith (fun a w => a * w) xn.data weight⟩

/-- `MLXRMSNorm.__call__` (`model_mlx.py` lines 153-161): the code first
REBINDS `x = x.astype(mxc.float32)` and only then computes
`self._norm(x).astype(x.dtype)` — at that point `x.dtype` is already
`float32`, so the result is never cast back to the caller's dtype. -/
noncomputable def mlxRMSNormForward (eps : ℝ) (addUnitOffset : Bool) (weight : List ℝ)
    (x : MTensor) : MTensor :=
  let x1 := tCast x DType.float32
  let xn := tCast (rmsNormKernel eps x1) x1.dtype
  if addUnitOffset then
    ⟨xn.dtype, List.zipWith (fun a w => a * (1 + w)) xn.data weight⟩
  else
    ⟨xn.dtype, List.zipWith (fun a w => a * w) xn.data weight⟩

/-- Claim C4: on a `float16` input the MLX RMSNorm returns a `float32`
tensor — the cast back to the input's original dtype never happens
(`astype(x.dtype)` sees the rebound `float32` tensor) — while the
PyTorch reference returns the input dtype as the claim states. -/
theorem mlx_rmsnorm_keeps_float32 :
    (mlxRMSNormForward (1 / 1000000) true [0]
      ⟨DType.float16, [1]⟩).dtype = DType.float32 ∧
    (rmsNormForward (1 / 1000000) true [0]
      ⟨DType.float16, [1]⟩).dtype = DType.float16 ∧
    DType.float32 ≠ DType.float16 :=
  ⟨rfl, rfl, by decide⟩

/-- Supporting fact for the PyTorch RMSNorm: the normalization kernel
always runs on a `float32` tensor, the output dtype equals the input
dtype, and the values are `x / sqrt(mean(x², last axis) + eps)` times
`1 + weight` (unit-offset variant) or times `weight`. -/
theorem rmsnorm_torch_formula (eps : ℝ) (weight : List ℝ) (x : MTensor)
    (i : ℕ) (hi : i < x.data.length) (hw : i < weight.length) :
    (rmsNormKernel eps (tFloat x)).dtype = DType.float32 ∧
    (rmsNormForward eps true weight x).dtype = x.dtype ∧
    (rmsNormForward eps false weight x).dtype = x.dtype ∧
    (rmsNormForward eps true weight x).data.getD i 0 =
      x.data.getD i 0 / Real.sqrt (meanSq x.data + eps) *
        (1 + weight.getD i 0) ∧
    (rmsNormForward eps false weight x).data.getD i 0 =
      x.data.getD i 0 / Real.sqrt (meanSq x.data + eps) *
        weight.getD i 0 := by
  have hmap : i < (x.data.map
      (fun v => v * (Real.sqrt (meanSq x.data + eps))⁻¹)).length := by
    simpa using hi
  refine ⟨rfl, rfl, rfl, ?_, ?_⟩
  · show (List.zipWith (fun a w => a * (1 + w))
      (x.data.map (fun v => v * (Real.sqrt (meanSq x.data + eps))⁻¹))
      weight).getD i 0 = _
    rw [getD_zipWith _ 0 0 0 _ _ _ hmap hw,
      getD_map_of_lt _ 0 0 _ _ hi, div_eq_mul_inv]
  · show (List.zipWith (fun a w => a * w)
      (x.data.map (fun v => v * (Real.sqrt (meanSq x.data + eps))⁻¹))
      weight).getD i 0 = _
    rw [getD_zipWith _ 0 0 0 _ _ _ hmap hw,
      getD_map_of_lt _ 0 0 _ _ hi, div_eq_mul_inv]

/-- Witness for `rmsnorm_torch_formula` at `x = ⟨float16, [1]⟩`,
`weight = [0]`, `i = 0`. -/
theorem rmsnorm_torch_formula_witness :
    ((0 : ℕ) < (⟨DType.float16, [1]⟩ : MTensor).data.length ∧
      (0 : ℕ) < ([(0 : ℝ)] : List ℝ).length) ∧
    (rmsNormForward 0 true [0] ⟨DType.float16, [1]⟩).data.getD 0 0 =
      (⟨DType.float16, [1]⟩ : MTensor).data.getD 0 0 /
        Real.sqrt (meanSq (⟨DType.float16, [1]⟩ : MTensor).data + 0) *
        (1 + ([(0 : ℝ)] : List ℝ).getD 0 0) :=
  ⟨⟨by simp, by simp⟩,
    (rmsnorm_torch_formula 0 [0] ⟨DType.float16, [1]⟩ 0 (by simp)
      (by simp)).2.2.2.1⟩

/-- `Embedding.forward` over `ℝ` (`gemma_torch.py` lines 130-135):
dequantize when the flag is set, then look up each token id's row. -/
noncomputable def embeddingForwardR (quant : Bool) (w : List (List ℝ))
    (scaler : List ℝ) (tokens : List ℕ) : List (List ℝ) :=
  let wq := if quant then
    List.zipWith (fun s row => row.map (· * s)) scaler w else w
  tokens.map (fun t => wq.getD t [])

/-- The hidden states handed to the decoder stack by
`GemmaForCausalLM.forward` (`gemma_torch.py` lines 434-437):
`hidden_states = self.model.embed_tokens(input_token_ids)` followed by
`hidden_states = hidden_states * (self.config.hidden_size**0.5)`
(`hidden_size**0.5` is modelled by `Real.sqrt`). -/
noncomputable def causalLMHiddenInput (quant : Bool) (w : List (List ℝ))
    (scaler : List ℝ) (hiddenSize : ℕ) (tokens : List ℕ) :
    List (List ℝ) :=
  (embeddingForwardR quant w scaler tokens).map
    (fun row => row.map (fun v => v * Real.sqrt hiddenSize))

/-- `GemmaForCausalLM.forward` up to the sampler (`gemma_torch.py`
lines 434-444): the decoder stack `self.model` (abstracted as `modelFn`)
is applied to the scaled embedding, and nothing else touches the hidden
states between the embedding lookup and the first decoder layer. -/
noncomputable def causalLMForward (modelFn : List (List ℝ) → List (List ℝ))
    (quant : Bool) (w : List (List ℝ)) (scaler : List ℝ)
    (hiddenSize : ℕ) (tokens : List ℕ) : List (List ℝ) :=
  modelFn (causalLMHiddenInput quant w scaler hiddenSize tokens)

/-- Claim C10: the hidden states fed to the first decoder layer are
exactly the token embeddings scaled by `hidden_size ** 0.5`, entrywise,
with the scaling applied exactly once (a single factor per entry),
after the embedding lookup and before the decoder stack. -/
theorem causal_lm_scales_embedding_once
    (modelFn : List (List ℝ) → List (List ℝ)) (quant : Bool)
    (w : List (List ℝ)) (scaler : List ℝ) (hiddenSize : ℕ)
    (tokens : List ℕ) (i j : ℕ) (hi : i < tokens.length)
    (hj : j < ((embeddingForwardR quant w scaler tokens).getD i []).length) :
    causalLMForward modelFn quant w scaler hiddenSize tokens =
      modelFn (causalLMHiddenInput quant w scaler hiddenSize tokens) ∧
    ((causalLMHiddenInput quant w scaler hiddenSize tokens).getD i
        []).getD j 0 =
      ((embeddingForwardR quant w scaler tokens).getD i []).getD j 0 *
        Real.sqrt hiddenSize := by
  have hie : i < (embeddingForwardR quant w scaler tokens).length := by
    simpa [embeddingForwardR] using hi
  refine ⟨rfl, ?_⟩
  rw [causalLMHiddenInput, getD_map_of_lt _ [] [] _ _ hie,
    getD_map_of_lt _ 0 0 _ _ hj]

/-- Witness for `causal_lm_scales_embedding_once` with the identity
decoder stack, a one-row embedding matrix, `hidden_size = 4` and prompt
`[0]`. -/
theorem causal_lm_scales_embedding_once_witness :
    ((0 : ℕ) < ([0] : List ℕ).length ∧
      (0 : ℕ) < ((embeddingForwardR false [[1]] [] [0]).getD 0
        []).length) ∧
    ((causalLMHiddenInput false [[1]] [] 4 [0]).getD 0 []).getD 0 0 =
      ((embeddingForwardR false [[1]] [] [0]).getD 0 []).getD 0 0 *
        Real.sqrt 4 :=
  ⟨⟨by simp, by simp [embeddingForwardR]⟩,
    (causal_lm_scales_embedding_once id false [[1]] [] 4 [0] 0 0
      (by simp) (by simp [embeddingForwardR])).2⟩

end Gemma
